import Mathlib

set_option maxRecDepth 40000

/-!
# Verification of the bit-packed 8×8 grid engine and the bit-plane transpose

This development gives a shallow embedding, over `Nat`, of the two algorithmic
modules of the repository:

* `Match3Board` (two 64-bit planes, 2 bits per cell, `getColor` / `setColor` /
  `applyGravity`), embedded faithfully from the TypeScript class, bigints
  becoming `Nat` with bitwise operations;
* `transposeBitboard`, the three-stage masked-swap routine on a 64-bit word.

JavaScript `bigint` values occurring here are non-negative, so they embed as
`Nat`.  The two bigint idioms with no direct `Nat` counterpart are embedded by
the standard identities (valid for all non-negative bigints):

* `a & ~b` = `a ^ (a & b)` (clear in `a` the bits set in `b`), see `andNot`;
* `x & -x` = `x - (x & (x - 1))` (isolate the lowest set bit), see
  `lowestSetBit`.

The unbounded `do … while` of `applyGravity` is embedded with explicit fuel
(225), and we prove below that the loop always reaches its exit condition
within that fuel (each moving pass strictly decreases the total of occupied
row indices, which is at most 224), so the fueled function agrees with the
source loop on every board.
-/

namespace Match3Spec

/-- Bigint `a & ~b` for non-negative `a`, `b`: clears in `a` every bit set in
`b`.  Equal to `a ^ (a & b)` bitwise. -/
def andNot (a b : Nat) : Nat := a ^^^ (a &&& b)

/-- Bigint `x & -x` for non-negative `x`: isolates the lowest set bit
(`0` for `x = 0`).  Equal to `x - (x & (x - 1))`. -/
def lowestSetBit (x : Nat) : Nat := x - (x &&& (x - 1))

/-- The board state of `Match3Board`: two 64-bit planes, bit `row*8+col` of
`lowBits`/`highBits` being the low/high bit of the 2-bit cell value. -/
structure Match3Board where
  lowBits : Nat
  highBits : Nat
deriving DecidableEq

/-- The empty board produced by the `Match3Board` constructor. -/
def emptyBoard : Match3Board := ⟨0, 0⟩

/-- `Match3Board.getColor`: reads the 2-bit value at `(row, col)`,
`(high << 1) | low` of the two plane bits at position `row*8+col`. -/
def getColor (b : Match3Board) (row col : Nat) : Nat :=
  let pos := row * 8 + col
  let mask := 1 <<< pos
  let low : Nat := if b.lowBits &&& mask ≠ 0 then 1 else 0
  let high : Nat := if b.highBits &&& mask ≠ 0 then 1 else 0
  (high <<< 1) ||| low

/-- `Match3Board.setColor`: writes bit `color & 1` into the low plane and bit
`color & 2` into the high plane at position `row*8+col`. -/
def setColor (b : Match3Board) (row col color : Nat) : Match3Board :=
  let pos := row * 8 + col
  let mask := 1 <<< pos
  let lowBits := if color &&& 1 ≠ 0 then b.lowBits ||| mask else andNot b.lowBits mask
  let highBits := if color &&& 2 ≠ 0 then b.highBits ||| mask else andNot b.highBits mask
  ⟨lowBits, highBits⟩

/-- The per-column mask built by `applyGravity`: one bit in every 8th
position, `1 << (row*8 + col)` for `row = 0..7`. -/
def columnMask (col : Nat) : Nat :=
  (List.range 8).foldl (fun m row => m ||| (1 <<< (row * 8 + col))) 0

/-- Body of the inner `for (col …)` loop of `applyGravity`.  `occupiedCells`,
`emptyCells` and `aboveRowMask` are the values computed at the head of the
enclosing row iteration (the source reads these snapshots, not the live
planes, inside the column loop). -/
def colStep (row occupiedCells emptyCells aboveRowMask : Nat)
    (st : Match3Board × Bool) (col : Nat) : Match3Board × Bool :=
  let b := st.1
  let columnMaskC := columnMask col
  let emptyInColumn := emptyCells &&& columnMaskC
  if emptyInColumn ≠ 0 then
    let belowMask := columnMaskC &&& ((1 <<< (row * 8 + col)) - 1)
    -- `if (!hasPieceBelow || row === 0)` where
    -- `hasPieceBelow = (occupiedCells & belowMask) !== 0n`
    if occupiedCells &&& belowMask = 0 ∨ row = 0 then
      let aboveMask := columnMaskC &&& aboveRowMask
      let piecesAbove := occupiedCells &&& aboveMask
      if piecesAbove ≠ 0 then
        let lowestPieceAbove := lowestSetBit piecesAbove
        let lowBitMove := b.lowBits &&& lowestPieceAbove
        let highBitMove := b.highBits &&& lowestPieceAbove
        -- clear the source position, then move the piece down 8 positions
        (⟨andNot b.lowBits lowestPieceAbove ||| (lowBitMove >>> 8),
          andNot b.highBits lowestPieceAbove ||| (highBitMove >>> 8)⟩, true)
      else st
    else st
  else st

/-- Body of the `for (row = 0; row < 7; row++)` loop of `applyGravity`:
computes the row masks and the occupancy/emptiness snapshots, then runs the
column loop (skipped when the row has no empty cell). -/
def rowStep (st : Match3Board × Bool) (row : Nat) : Match3Board × Bool :=
  let currentRowMask := 0xFF <<< (row * 8)
  let aboveRowMask := 0xFF <<< ((row + 1) * 8)
  let occupiedCells := st.1.lowBits ||| st.1.highBits
  -- `~occupiedCells & currentRowMask`
  let emptyCells := andNot currentRowMask occupiedCells
  if emptyCells ≠ 0 then
    (List.range 8).foldl (colStep row occupiedCells emptyCells aboveRowMask) st
  else st

/-- One full pass of the `do … while (moved)` loop of `applyGravity`:
rows `0..6` in order, with the `moved` flag starting `false`. -/
def gravityPass (b : Match3Board) : Match3Board × Bool :=
  (List.range 7).foldl rowStep (b, false)

/-- The `do … while (moved)` loop, with explicit fuel.  (Proved below to
reach its fixed point within fuel 225 on every board.) -/
def gravityLoop : Nat → Match3Board → Match3Board
  | 0, b => b
  | fuel + 1, b =>
    let step := gravityPass b
    if step.2 then gravityLoop fuel step.1 else step.1

/-- `Match3Board.applyGravity`. -/
def applyGravity (b : Match3Board) : Match3Board := gravityLoop 225 b

/-- `transposeBitboard` from `src/utils/bitboard.ts`: the three masked-swap
stages with shifts 8, 16 and 32. -/
def transposeBitboard (bitboard : Nat) : Nat :=
  let k1 : Nat := 0x5500550055005500
  let k2 : Nat := 0x3333000033330000
  let k4 : Nat := 0x0f0f0f0f00000000
  let t1 := bitboard ^^^ ((bitboard <<< 8) &&& k1)
  let b1 := t1 ^^^ ((t1 >>> 8) &&& k1)
  let t2 := b1 ^^^ ((b1 <<< 16) &&& k2)
  let b2 := t2 ^^^ ((t2 >>> 16) &&& k2)
  let t3 := b2 ^^^ ((b2 <<< 32) &&& k4)
  let b3 := t3 ^^^ ((t3 >>> 32) &&& k4)
  b3

/-! ### Column abstraction

`applyGravity` touches each column only through its own 8 bit positions
`row*8 + col`.  We abstract a column of one plane into an 8-bit word
(`colw`), and mirror the per-cell move of the source as `colStepA` /
`colPassA` acting on the pair of column words.  The dynamics (which cells
move) depend only on the 8-bit occupancy word, mirrored by `occStepA` /
`occPassA`; having a 256-element state space, the properties of the dynamics
become decidable. -/

/-- The 8-bit column word of plane `x` at column `c`: bit `r` is bit
`r*8 + c` of `x`. -/
def colw (x c : Nat) : Nat :=
  (List.range 8).foldl (fun w r => w ||| ((if x.testBit (r * 8 + c) then 1 else 0) <<< r)) 0

/-- The move condition of `applyGravity` for one column, read off the 8-bit
occupancy word: cell `row` empty, nothing strictly below it (or `row = 0`),
and cell `row+1` occupied. -/
def moveGuard (occ row : Nat) : Bool :=
  !occ.testBit row && (occ &&& ((1 <<< row) - 1) == 0 || row == 0) && occ.testBit (row + 1)

/-- Move bit `row+1` of the 8-bit word `w` down to bit `row` (the
column-word image of the source's clear-and-shift of the isolated piece). -/
def colMove (w row : Nat) : Nat :=
  andNot w (1 <<< (row + 1)) ||| ((w &&& (1 <<< (row + 1))) >>> 1)

/-- Per-row step of one gravity pass on a single column, on the pair of
column words plus the `moved` flag. -/
def colStepA (st : (Nat × Nat) × Bool) (row : Nat) : (Nat × Nat) × Bool :=
  if moveGuard (st.1.1 ||| st.1.2) row then
    ((colMove st.1.1 row, colMove st.1.2 row), true)
  else st

/-- One gravity pass on a single column (rows `0..6`, flag starting
`false`). -/
def colPassA (lh : Nat × Nat) : (Nat × Nat) × Bool :=
  (List.range 7).foldl colStepA (lh, false)

/-- `n` gravity passes on a single column. -/
def colPassN : Nat → Nat × Nat → Nat × Nat
  | 0, lh => lh
  | n + 1, lh => colPassN n (colPassA lh).1

/-- Per-row step of one gravity pass on an 8-bit occupancy word. -/
def occStepA (st : Nat × Bool) (row : Nat) : Nat × Bool :=
  if moveGuard st.1 row then (colMove st.1 row, true) else st

/-- One gravity pass on an 8-bit occupancy word. -/
def occPassA (occ : Nat) : Nat × Bool :=
  (List.range 7).foldl occStepA (occ, false)

/-- Sum of the row indices of the occupied cells of a column, from its
occupancy word. -/
def occMeas (occ : Nat) : Nat :=
  ∑ r ∈ Finset.range 8, if occ.testBit r then r else 0

/-- The 2-bit value of cell `r` of a column given its two column words. -/
def cellVal (l h r : Nat) : Nat :=
  2 * (if h.testBit r then 1 else 0) + (if l.testBit r then 1 else 0)

/-- Sum over all cells of the board of the row index of each occupied
cell — the termination measure of `applyGravity`. -/
def sumRows (b : Match3Board) : Nat :=
  ∑ r ∈ Finset.range 8, ∑ c ∈ Finset.range 8, if getColor b r c ≠ 0 then r else 0

/-- The multiset of the values of the occupied cells of the board. -/
def occupiedValues (b : Match3Board) : Multiset Nat :=
  ↑((((List.range 8).flatMap fun c => (List.range 8).map fun r => getColor b r c)).filter (· ≠ 0))

/-! ### Basic bit lemmas -/

theorem board_ext {a b : Match3Board} (h1 : a.lowBits = b.lowBits)
    (h2 : a.highBits = b.highBits) : a = b := by
  cases a; cases b; cases h1; cases h2; rfl

theorem testBit_andNot (a b i : Nat) :
    (andNot a b).testBit i = (a.testBit i && !b.testBit i) := by
  simp only [andNot, Nat.testBit_xor, Nat.testBit_land]
  cases a.testBit i <;> cases b.testBit i <;> rfl

theorem oneShift_eq_pow (k : Nat) : (1 : Nat) <<< k = 2 ^ k := by
  simp [Nat.shiftLeft_eq]

theorem testBit_oneShift (k i : Nat) : ((1 : Nat) <<< k).testBit i = decide (i = k) := by
  rw [oneShift_eq_pow, Nat.testBit_two_pow]
  simp [eq_comm]

theorem eq_zero_iff_testBit (x : Nat) : x = 0 ↔ ∀ i, x.testBit i = false := by
  constructor
  · rintro rfl i; exact Nat.zero_testBit i
  · intro h
    exact Nat.eq_of_testBit_eq fun i => by rw [h i, Nat.zero_testBit]

theorem and_oneShift (a k : Nat) :
    a &&& (1 <<< k) = if a.testBit k then 1 <<< k else 0 := by
  rw [oneShift_eq_pow, Nat.and_two_pow]
  cases h : a.testBit k <;> simp [h]

theorem and_oneShift_ne_zero (a k : Nat) :
    (a &&& (1 <<< k) ≠ 0) ↔ a.testBit k = true := by
  rw [and_oneShift]
  have hpos : (1 : Nat) <<< k ≠ 0 := by
    rw [oneShift_eq_pow]
    exact Nat.pos_iff_ne_zero.mp (Nat.pos_pow_of_pos k (by norm_num))
  cases h : a.testBit k <;> simp [h, hpos]

theorem lowestSetBit_oneShift (k : Nat) : lowestSetBit (1 <<< k) = 1 <<< k := by
  have h : (1 <<< k) &&& (1 <<< k - 1) = 0 := by
    rw [eq_zero_iff_testBit]
    intro i
    rw [oneShift_eq_pow, Nat.testBit_land, Nat.testBit_two_pow, Nat.testBit_two_pow_sub_one]
    by_cases hik : k = i <;> simp [hik]
  simp [lowestSetBit, h]

theorem lt_two_pow_of_high_bits_false {x n : Nat}
    (h : ∀ i, n ≤ i → x.testBit i = false) : x < 2 ^ n := by
  have hx : x = x % 2 ^ n := by
    refine Nat.eq_of_testBit_eq fun i => ?_
    rw [Nat.testBit_mod_two_pow]
    by_cases hi : i < n
    · simp [hi]
    · simp [hi, h i (Nat.le_of_not_lt hi)]
  rw [hx]
  exact Nat.mod_lt _ (Nat.pos_pow_of_pos n (by norm_num))

/-! ### Column-word lemmas -/

theorem testBit_condBit (b : Bool) (r i : Nat) :
    ((((if b then 1 else 0) : Nat)) <<< r).testBit i = (decide (i = r) && b) := by
  cases b
  · show ((0 : Nat) <<< r).testBit i = _
    simp [Nat.zero_shiftLeft, Nat.zero_testBit]
  · show ((1 : Nat) <<< r).testBit i = _
    rw [testBit_oneShift]
    simp

theorem testBit_colwAux (x c n i : Nat) :
    (((List.range n).foldl
        (fun w r => w ||| ((if x.testBit (r * 8 + c) then 1 else 0) <<< r)) 0)).testBit i
      = (decide (i < n) && x.testBit (i * 8 + c)) := by
  induction n with
  | zero => simp [Nat.zero_testBit]
  | succ n ih =>
    rw [List.range_succ, List.foldl_append]
    simp only [List.foldl_cons, List.foldl_nil]
    rw [Nat.testBit_lor, ih, testBit_condBit]
    by_cases hin : i = n
    · subst hin; simp
    · have h3 : decide (i < n + 1) = decide (i < n) := decide_eq_decide.mpr (by omega)
      simp [hin, h3]

theorem testBit_colw (x c i : Nat) :
    (colw x c).testBit i = (decide (i < 8) && x.testBit (i * 8 + c)) :=
  testBit_colwAux x c 8 i

theorem colw_lt (x c : Nat) : colw x c < 256 := by
  have h := lt_two_pow_of_high_bits_false (x := colw x c) (n := 8) fun i hi => by
    rw [testBit_colw]; simp [Nat.not_lt.mpr hi]
  norm_num at h
  exact h

theorem colw_lor (a b c : Nat) : colw (a ||| b) c = colw a c ||| colw b c := by
  refine Nat.eq_of_testBit_eq fun i => ?_
  simp [testBit_colw, Nat.testBit_lor, Bool.and_or_distrib_left]

theorem testBit_colMove (w row i : Nat) :
    (colMove w row).testBit i =
      ((w.testBit i && !decide (i = row + 1)) || (decide (i = row) && w.testBit (row + 1))) := by
  simp only [colMove, Nat.testBit_lor, testBit_andNot, testBit_oneShift,
    Nat.testBit_shiftRight, Nat.testBit_land]
  by_cases h : i = row
  · subst h
    have h1 : decide (1 + i = i + 1) = true := decide_eq_true (by omega)
    have h2 : (1 + i) = (i + 1) := by omega
    simp [h2]
  · have h1 : decide (1 + i = row + 1) = false := by
      simp only [decide_eq_false_iff_not]; omega
    have h2 : decide (i = row) = false := by
      simp only [decide_eq_false_iff_not]; omega
    simp [h1, h2]

theorem colMove_lor (a b row : Nat) :
    colMove (a ||| b) row = colMove a row ||| colMove b row := by
  refine Nat.eq_of_testBit_eq fun i => ?_
  rw [Bool.eq_iff_iff]
  simp only [testBit_colMove, Nat.testBit_lor, Bool.or_eq_true,
    Bool.and_eq_true, Bool.not_eq_true', decide_eq_true_eq]
  tauto

/-! ### Mask lemmas for the board-level column step -/

theorem testBit_ffShift (s i : Nat) :
    ((0xFF : Nat) <<< s).testBit i = (decide (s ≤ i) && decide (i - s < 8)) := by
  rw [show (0xFF : Nat) = 2 ^ 8 - 1 from rfl, Nat.testBit_shiftLeft,
    Nat.testBit_two_pow_sub_one]

theorem testBit_columnMask (col i : Nat) (hcol : col < 8) :
    (columnMask col).testBit i = (decide (i < 64) && decide (i % 8 = col)) := by
  unfold columnMask
  rw [show List.range 8 = [0, 1, 2, 3, 4, 5, 6, 7] from rfl]
  simp only [List.foldl_cons, List.foldl_nil, Nat.testBit_lor, testBit_oneShift,
    Nat.zero_testBit, Bool.false_or]
  rw [Bool.eq_iff_iff]
  simp only [Bool.or_eq_true, Bool.and_eq_true, decide_eq_true_eq]
  omega

theorem ne_zero_iff_exists_testBit (x : Nat) : x ≠ 0 ↔ ∃ i, x.testBit i = true := by
  rw [Ne, eq_zero_iff_testBit]
  push_neg
  simp only [Bool.not_eq_false]

/-- The "pieces above" mask of the column step is the single bit directly
above the empty cell. -/
theorem aboveMask_eq (row col : Nat) (hrow : row < 7) (hcol : col < 8) :
    columnMask col &&& (0xFF <<< ((row + 1) * 8)) = 1 <<< ((row + 1) * 8 + col) := by
  refine Nat.eq_of_testBit_eq fun i => ?_
  rw [Nat.testBit_land, testBit_columnMask col i hcol, testBit_ffShift, testBit_oneShift]
  rw [Bool.eq_iff_iff]
  simp only [Bool.and_eq_true, decide_eq_true_eq]
  omega

/-- The `emptyInColumn ≠ 0` test of the column step is exactly the emptiness
of the cell `(row, col)`. -/
theorem emptyInColumn_ne_zero (row col occ : Nat) (hrow : row < 7) (hcol : col < 8) :
    (andNot (0xFF <<< (row * 8)) occ &&& columnMask col ≠ 0) ↔
      occ.testBit (row * 8 + col) = false := by
  rw [ne_zero_iff_exists_testBit]
  constructor
  · rintro ⟨i, hi⟩
    rw [Nat.testBit_land, testBit_andNot, testBit_ffShift, testBit_columnMask _ _ hcol] at hi
    simp only [Bool.and_eq_true, Bool.not_eq_true', decide_eq_true_eq] at hi
    obtain ⟨⟨⟨h1, h2⟩, hocc⟩, h3, h4⟩ := hi
    have hik : i = row * 8 + col := by omega
    rwa [hik] at hocc
  · intro hocc
    refine ⟨row * 8 + col, ?_⟩
    rw [Nat.testBit_land, testBit_andNot, testBit_ffShift, testBit_columnMask _ _ hcol]
    simp only [Bool.and_eq_true, Bool.not_eq_true', decide_eq_true_eq]
    exact ⟨⟨⟨by omega, by omega⟩, hocc⟩, by omega, by omega⟩

/-- The `hasPieceBelow` test of the column step, read on the board
occupancy. -/
theorem belowMask_zero_iff (row col occ : Nat) (hrow : row < 7) (hcol : col < 8) :
    occ &&& (columnMask col &&& ((1 <<< (row * 8 + col)) - 1)) = 0 ↔
      ∀ r', r' < row → occ.testBit (r' * 8 + col) = false := by
  constructor
  · intro h r' hr'
    cases h' : occ.testBit (r' * 8 + col)
    · rfl
    · exfalso
      have hne : occ &&& (columnMask col &&& ((1 <<< (row * 8 + col)) - 1)) ≠ 0 := by
        rw [ne_zero_iff_exists_testBit]
        refine ⟨r' * 8 + col, ?_⟩
        rw [Nat.testBit_land, Nat.testBit_land, testBit_columnMask _ _ hcol,
          oneShift_eq_pow, Nat.testBit_two_pow_sub_one, h']
        simp only [Bool.and_eq_true, decide_eq_true_eq, true_and]
        exact ⟨⟨by omega, by omega⟩, by omega⟩
      exact hne h
  · intro h
    by_contra h0
    obtain ⟨i, hi⟩ := (ne_zero_iff_exists_testBit _).mp h0
    rw [Nat.testBit_land, Nat.testBit_land, testBit_columnMask _ _ hcol,
      oneShift_eq_pow, Nat.testBit_two_pow_sub_one] at hi
    simp only [Bool.and_eq_true, decide_eq_true_eq] at hi
    obtain ⟨hocc, ⟨h1, h2⟩, h3⟩ := hi
    have hi8 : i = (i / 8) * 8 + col := by omega
    have hlt : i / 8 < row := by omega
    rw [hi8, h _ hlt] at hocc
    exact Bool.false_ne_true hocc

/-- The abstract below-test on the column word agrees with the board-level
one. -/
theorem belowMask_abs_iff (row col occ : Nat) (hrow : row < 7) (hcol : col < 8) :
    colw occ col &&& ((1 <<< row) - 1) = 0 ↔
      ∀ r', r' < row → occ.testBit (r' * 8 + col) = false := by
  constructor
  · intro h r' hr'
    cases h' : occ.testBit (r' * 8 + col)
    · rfl
    · exfalso
      have hne : colw occ col &&& ((1 <<< row) - 1) ≠ 0 := by
        rw [ne_zero_iff_exists_testBit]
        refine ⟨r', ?_⟩
        rw [Nat.testBit_land, testBit_colw, oneShift_eq_pow, Nat.testBit_two_pow_sub_one, h']
        simp only [Bool.and_eq_true, decide_eq_true_eq, and_true]
        exact ⟨by omega, by omega⟩
      exact hne h
  · intro h
    by_contra h0
    obtain ⟨i, hi⟩ := (ne_zero_iff_exists_testBit _).mp h0
    rw [Nat.testBit_land, testBit_colw, oneShift_eq_pow, Nat.testBit_two_pow_sub_one] at hi
    simp only [Bool.and_eq_true, decide_eq_true_eq] at hi
    obtain ⟨⟨h1, hocc⟩, h3⟩ := hi
    rw [h i h3] at hocc
    exact Bool.false_ne_true hocc

/-! ### The column step commutes with column extraction -/

theorem colw_bit_agree {x y c : Nat} (h : colw x c = colw y c) :
    ∀ j, j < 8 → x.testBit (j * 8 + c) = y.testBit (j * 8 + c) := by
  intro j hj
  have h2 := congrArg (fun w => Nat.testBit w j) h
  simpa [testBit_colw, hj] using h2

theorem moveGuard_eq_true_iff (w row : Nat) :
    moveGuard w row = true ↔
      (w.testBit row = false ∧ (w &&& ((1 <<< row) - 1) = 0 ∨ row = 0) ∧
        w.testBit (row + 1) = true) := by
  simp only [moveGuard, Bool.and_eq_true, Bool.or_eq_true, Bool.not_eq_true',
    beq_iff_eq, decide_eq_true_eq]
  tauto

/-- A single-piece move in column `col` leaves every bit outside the column
(and every bit above the board) unchanged. -/
theorem plane_move_off (w col row p : Nat) (hrow : row < 7) (hcol : col < 8)
    (hp : p % 8 ≠ col ∨ 64 ≤ p) :
    (andNot w (1 <<< ((row + 1) * 8 + col)) |||
        ((w &&& (1 <<< ((row + 1) * 8 + col))) >>> 8)).testBit p = w.testBit p := by
  have d1 : decide (p = (row + 1) * 8 + col) = false := by
    simp only [decide_eq_false_iff_not]; omega
  have d2 : decide (8 + p = (row + 1) * 8 + col) = false := by
    simp only [decide_eq_false_iff_not]; omega
  simp only [Nat.testBit_lor, testBit_andNot, Nat.testBit_shiftRight,
    Nat.testBit_land, testBit_oneShift, d1, d2]
  simp

/-- A single-piece move in column `col` acts on the column word as
`colMove`. -/
theorem plane_move_colw (w w0 col row : Nat) (hrow : row < 7) (hcol : col < 8)
    (hagree : colw w col = colw w0 col) :
    colw (andNot w (1 <<< ((row + 1) * 8 + col)) |||
        ((w &&& (1 <<< ((row + 1) * 8 + col))) >>> 8)) col
      = colMove (colw w0 col) row := by
  refine Nat.eq_of_testBit_eq fun i => ?_
  rw [testBit_colw, testBit_colMove]
  by_cases hi8 : i < 8
  · have hd8 : decide (i < 8) = true := decide_eq_true hi8
    rw [hd8, Bool.true_and]
    simp only [Nat.testBit_lor, testBit_andNot, testBit_oneShift, Nat.testBit_shiftRight,
      Nat.testBit_land, testBit_colw]
    have e1 : decide (i * 8 + col = (row + 1) * 8 + col) = decide (i = row + 1) :=
      decide_eq_decide.mpr (by omega)
    have e2 : decide (8 + (i * 8 + col) = (row + 1) * 8 + col) = decide (i = row) :=
      decide_eq_decide.mpr (by omega)
    rw [e1, e2]
    by_cases hir : i = row
    · subst hir
      have e3 : 8 + (i * 8 + col) = (i + 1) * 8 + col := by omega
      rw [e3]
      have a1 := colw_bit_agree hagree i hi8
      have a2 := colw_bit_agree hagree (i + 1) (by omega)
      have e4 : decide (i = i + 1) = false := by simp only [decide_eq_false_iff_not]; omega
      have hd : decide (i + 1 < 8) = true := decide_eq_true (by omega)
      simp [a1, a2, e4, hd, hi8]
    · have e4 : decide (i = row) = false := by simp only [decide_eq_false_iff_not]; omega
      rw [e4]
      have a1 := colw_bit_agree hagree i hi8
      simp [a1, hi8]
  · have hd8 : decide (i < 8) = false := by simp only [decide_eq_false_iff_not]; omega
    have e4 : decide (i = row) = false := by simp only [decide_eq_false_iff_not]; omega
    simp [testBit_colw, hd8, e4]

/-- Characterization of one execution of the column-loop body of
`applyGravity`.  `B0` is the board at the head of the enclosing row
iteration (the source of the `occupiedCells` / `emptyCells` snapshots); the
current board `B` agrees with `B0` on the bits of column `col`.  The step
changes only bits of column `col` below the top of the board, acts on the
column words as `colStepA`, and reports the same `moved` flag. -/
theorem colStep_spec (row col : Nat) (hrow : row < 7) (hcol : col < 8)
    (B0 B : Match3Board) (f : Bool)
    (hl : colw B.lowBits col = colw B0.lowBits col)
    (hh : colw B.highBits col = colw B0.highBits col)
    (R : Match3Board × Bool)
    (hR : colStep row (B0.lowBits ||| B0.highBits)
        (andNot (0xFF <<< (row * 8)) (B0.lowBits ||| B0.highBits))
        (0xFF <<< ((row + 1) * 8)) (B, f) col = R)
    (A : (Nat × Nat) × Bool)
    (hA : colStepA ((colw B0.lowBits col, colw B0.highBits col), f) row = A) :
    (∀ p, p % 8 ≠ col ∨ 64 ≤ p →
        (R.1.lowBits.testBit p = B.lowBits.testBit p ∧
         R.1.highBits.testBit p = B.highBits.testBit p)) ∧
    colw R.1.lowBits col = A.1.1 ∧ colw R.1.highBits col = A.1.2 ∧ R.2 = A.2 := by
  subst hR hA
  have hcw : colw B0.lowBits col ||| colw B0.highBits col =
      colw (B0.lowBits ||| B0.highBits) col := (colw_lor _ _ _).symm
  have hbit_row : (colw (B0.lowBits ||| B0.highBits) col).testBit row =
      (B0.lowBits ||| B0.highBits).testBit (row * 8 + col) := by
    rw [testBit_colw]
    have h8 : row < 8 := by omega
    simp [h8]
  have hbit_row1 : (colw (B0.lowBits ||| B0.highBits) col).testBit (row + 1) =
      (B0.lowBits ||| B0.highBits).testBit ((row + 1) * 8 + col) := by
    rw [testBit_colw]
    have h8 : row + 1 < 8 := by omega
    simp [h8]
  simp only [colStep, colStepA, hcw]
  cases hb1 : (B0.lowBits ||| B0.highBits).testBit (row * 8 + col) with
  | true =>
    -- target cell occupied: no move on either side
    have hng1 : ¬(andNot (0xFF <<< (row * 8)) (B0.lowBits ||| B0.highBits) &&&
        columnMask col ≠ 0) := by
      rw [emptyInColumn_ne_zero row col _ hrow hcol, hb1]
      simp
    rw [if_neg hng1]
    have hmg : moveGuard (colw (B0.lowBits ||| B0.highBits) col) row = false := by
      cases hmv : moveGuard (colw (B0.lowBits ||| B0.highBits) col) row
      · rfl
      · exfalso
        obtain ⟨ha, -, -⟩ := (moveGuard_eq_true_iff _ _).mp hmv
        rw [hbit_row, hb1] at ha
        exact Bool.noConfusion ha
    rw [hmg, if_neg Bool.false_ne_true]
    exact ⟨fun p _ => ⟨rfl, rfl⟩, hl, hh, rfl⟩
  | false =>
    have hg1 : andNot (0xFF <<< (row * 8)) (B0.lowBits ||| B0.highBits) &&&
        columnMask col ≠ 0 := by
      rw [emptyInColumn_ne_zero row col _ hrow hcol]
      exact hb1
    rw [if_pos hg1]
    by_cases h2 : (B0.lowBits ||| B0.highBits) &&&
        (columnMask col &&& ((1 <<< (row * 8 + col)) - 1)) = 0 ∨ row = 0
    · rw [if_pos h2]
      cases hb3 : (B0.lowBits ||| B0.highBits).testBit ((row + 1) * 8 + col) with
      | false =>
        -- no piece directly above: no move on either side
        have hng3 : ¬((B0.lowBits ||| B0.highBits) &&&
            (columnMask col &&& (0xFF <<< ((row + 1) * 8))) ≠ 0) := by
          rw [aboveMask_eq row col hrow hcol, and_oneShift_ne_zero, hb3]
          simp
        rw [if_neg hng3]
        have hmg : moveGuard (colw (B0.lowBits ||| B0.highBits) col) row = false := by
          cases hmv : moveGuard (colw (B0.lowBits ||| B0.highBits) col) row
          · rfl
          · exfalso
            obtain ⟨-, -, hc⟩ := (moveGuard_eq_true_iff _ _).mp hmv
            rw [hbit_row1, hb3] at hc
            exact Bool.false_ne_true hc
        rw [hmg, if_neg Bool.false_ne_true]
        exact ⟨fun p _ => ⟨rfl, rfl⟩, hl, hh, rfl⟩
      | true =>
        -- the move happens on both sides
        have hg3 : (B0.lowBits ||| B0.highBits) &&&
            (columnMask col &&& (0xFF <<< ((row + 1) * 8))) ≠ 0 := by
          rw [aboveMask_eq row col hrow hcol, and_oneShift_ne_zero]
          exact hb3
        rw [if_pos hg3]
        have hmg : moveGuard (colw (B0.lowBits ||| B0.highBits) col) row = true := by
          rw [moveGuard_eq_true_iff]
          refine ⟨by rw [hbit_row]; exact hb1, ?_, by rw [hbit_row1]; exact hb3⟩
          rcases h2 with h2 | h2
          · exact Or.inl ((belowMask_abs_iff row col _ hrow hcol).mpr
              ((belowMask_zero_iff row col _ hrow hcol).mp h2))
          · exact Or.inr h2
        rw [hmg, if_pos rfl]
        have hpa : (B0.lowBits ||| B0.highBits) &&&
            (columnMask col &&& (0xFF <<< ((row + 1) * 8))) =
              1 <<< ((row + 1) * 8 + col) := by
          rw [aboveMask_eq row col hrow hcol, and_oneShift, hb3, if_pos rfl]
        rw [hpa, lowestSetBit_oneShift]
        exact ⟨fun p hp => ⟨plane_move_off _ _ _ _ hrow hcol hp,
            plane_move_off _ _ _ _ hrow hcol hp⟩,
          plane_move_colw _ _ _ _ hrow hcol hl,
          plane_move_colw _ _ _ _ hrow hcol hh, rfl⟩
    · rw [if_neg h2]
      -- a piece lies below the empty cell: no move on either side
      have hmg : moveGuard (colw (B0.lowBits ||| B0.highBits) col) row = false := by
        cases hmv : moveGuard (colw (B0.lowBits ||| B0.highBits) col) row
        · rfl
        · exfalso
          obtain ⟨-, hb, -⟩ := (moveGuard_eq_true_iff _ _).mp hmv
          apply h2
          rcases hb with hb | hb
          · exact Or.inl ((belowMask_zero_iff row col _ hrow hcol).mpr
              ((belowMask_abs_iff row col _ hrow hcol).mp hb))
          · exact Or.inr hb
      rw [hmg, if_neg Bool.false_ne_true]
      exact ⟨fun p _ => ⟨rfl, rfl⟩, hl, hh, rfl⟩

theorem colw_congr_of_bits {x y c : Nat}
    (h : ∀ i, i < 8 → x.testBit (i * 8 + c) = y.testBit (i * 8 + c)) :
    colw x c = colw y c := by
  refine Nat.eq_of_testBit_eq fun i => ?_
  rw [testBit_colw, testBit_colw]
  by_cases hi : i < 8
  · rw [h i hi]
  · simp [hi]

theorem colStepA_fst_flag (lh : Nat × Nat) (g : Bool) (row : Nat) :
    (colStepA (lh, g) row).1 = (colStepA (lh, false) row).1 ∧
    (colStepA (lh, g) row).2 = (g || (colStepA (lh, false) row).2) := by
  unfold colStepA
  cases hmv : moveGuard (lh.1 ||| lh.2) row <;> simp [hmv]

/-- The column loop of one row iteration, over any duplicate-free list of
columns: off-list bits (and bits above the board) are untouched, each listed
column evolves by `colStepA`, and the `moved` flag accumulates the
per-column move guards. -/
theorem colFold_spec (row : Nat) (hrow : row < 7) (B0 : Match3Board) :
    ∀ (L : List Nat), (∀ c ∈ L, c < 8) → L.Nodup →
    ∀ (B : Match3Board) (f : Bool),
    (∀ c ∈ L, colw B.lowBits c = colw B0.lowBits c ∧
      colw B.highBits c = colw B0.highBits c) →
    ∀ (R : Match3Board × Bool),
    L.foldl (colStep row (B0.lowBits ||| B0.highBits)
        (andNot (0xFF <<< (row * 8)) (B0.lowBits ||| B0.highBits))
        (0xFF <<< ((row + 1) * 8))) (B, f) = R →
    (∀ p, ((p % 8 ∉ L) ∨ 64 ≤ p) →
        (R.1.lowBits.testBit p = B.lowBits.testBit p ∧
         R.1.highBits.testBit p = B.highBits.testBit p)) ∧
    (∀ c ∈ L,
        colw R.1.lowBits c =
          (colStepA ((colw B0.lowBits c, colw B0.highBits c), false) row).1.1 ∧
        colw R.1.highBits c =
          (colStepA ((colw B0.lowBits c, colw B0.highBits c), false) row).1.2) ∧
    R.2 = (f || L.any fun c =>
      (colStepA ((colw B0.lowBits c, colw B0.highBits c), false) row).2) := by
  intro L
  induction L with
  | nil =>
    intro _ _ B f _ R hR
    subst hR
    exact ⟨fun p _ => ⟨rfl, rfl⟩, by simp, by simp⟩
  | cons c T ih =>
    intro hmem hnd B f hagree R hR
    have hc8 : c < 8 := hmem c (by simp)
    have hcT : c ∉ T := (List.nodup_cons.mp hnd).1
    have hndT : T.Nodup := (List.nodup_cons.mp hnd).2
    rcases hQ : colStep row (B0.lowBits ||| B0.highBits)
        (andNot (0xFF <<< (row * 8)) (B0.lowBits ||| B0.highBits))
        (0xFF <<< ((row + 1) * 8)) (B, f) c with ⟨B1, f1⟩
    obtain ⟨hoff1, hcl1, hch1, hfl1⟩ := colStep_spec row c hrow hc8 B0 B f
      (hagree c (by simp)).1 (hagree c (by simp)).2 (B1, f1) hQ _ rfl
    rw [List.foldl_cons, hQ] at hR
    have hagP : ∀ c' ∈ T,
        colw B1.lowBits c' = colw B0.lowBits c' ∧
        colw B1.highBits c' = colw B0.highBits c' := by
      intro c' hc'
      have hc'8 : c' < 8 := hmem c' (by simp [hc'])
      have hne : c' ≠ c := fun h => hcT (h ▸ hc')
      have hmod : ∀ i, i < 8 → (i * 8 + c') % 8 ≠ c := by
        intro i hi
        have : (i * 8 + c') % 8 = c' := by omega
        omega
      constructor
      · refine Eq.trans (colw_congr_of_bits fun i hi => ?_) (hagree c' (by simp [hc'])).1
        exact (hoff1 (i * 8 + c') (Or.inl (hmod i hi))).1
      · refine Eq.trans (colw_congr_of_bits fun i hi => ?_) (hagree c' (by simp [hc'])).2
        exact (hoff1 (i * 8 + c') (Or.inl (hmod i hi))).2
    obtain ⟨hoffT, hcolT, hflT⟩ := ih (fun c' hc' => hmem c' (by simp [hc'])) hndT B1 f1 hagP R hR
    refine ⟨?_, ?_, ?_⟩
    · intro p hp
      have hp1 : p % 8 ≠ c ∨ 64 ≤ p := by
        rcases hp with hp | hp
        · exact Or.inl fun h => hp (by simp [h])
        · exact Or.inr hp
      have hpT : (p % 8 ∉ T) ∨ 64 ≤ p := by
        rcases hp with hp | hp
        · exact Or.inl fun h => hp (by simp [h])
        · exact Or.inr hp
      obtain ⟨e1, e2⟩ := hoffT p hpT
      obtain ⟨e3, e4⟩ := hoff1 p hp1
      exact ⟨e1.trans e3, e2.trans e4⟩
    · intro c'' hc''
      rcases List.mem_cons.mp hc'' with hc'' | hc''
      · subst hc''
        have hmod : ∀ i, i < 8 → (i * 8 + c'') % 8 ∉ T := by
          intro i hi
          have : (i * 8 + c'') % 8 = c'' := by omega
          rw [this]
          exact hcT
        have hlw : colw R.1.lowBits c'' = colw B1.lowBits c'' :=
          colw_congr_of_bits fun i hi => (hoffT (i * 8 + c'') (Or.inl (hmod i hi))).1
        have hhw : colw R.1.highBits c'' = colw B1.highBits c'' :=
          colw_congr_of_bits fun i hi => (hoffT (i * 8 + c'') (Or.inl (hmod i hi))).2
        rw [hlw, hhw, hcl1, hch1]
        exact ⟨(colStepA_fst_flag (colw B0.lowBits c'', colw B0.highBits c'') f row).1 ▸ rfl,
          (colStepA_fst_flag (colw B0.lowBits c'', colw B0.highBits c'') f row).1 ▸ rfl⟩
      · exact hcolT c'' hc''
    · have hfl1' : f1 = (colStepA ((colw B0.lowBits c, colw B0.highBits c), f) row).2 := hfl1
      rw [hflT, hfl1']
      have hstep := (colStepA_fst_flag (colw B0.lowBits c, colw B0.highBits c) f row).2
      rw [hstep, List.any_cons, Bool.or_assoc]

theorem list_any_congr {L : List Nat} {f g : Nat → Bool}
    (h : ∀ c ∈ L, f c = g c) : L.any f = L.any g := by
  induction L with
  | nil => rfl
  | cons a L ih =>
    rw [List.any_cons, List.any_cons, h a (by simp),
      ih fun c hc => h c (by simp [hc])]

theorem list_any_or (L : List Nat) (f g : Nat → Bool) :
    (L.any fun c => f c || g c) = (L.any f || L.any g) := by
  induction L with
  | nil => rfl
  | cons a L ih =>
    rw [List.any_cons, List.any_cons, List.any_cons, ih]
    cases f a <;> cases g a <;> cases L.any f <;> cases L.any g <;> rfl

/-- The first component of an abstract column fold does not depend on the
initial flag; the flag accumulates by disjunction. -/
theorem colFoldA_flag (L : List Nat) :
    ∀ (lh : Nat × Nat) (g : Bool),
    (L.foldl colStepA (lh, g)).1 = (L.foldl colStepA (lh, false)).1 ∧
    (L.foldl colStepA (lh, g)).2 = (g || (L.foldl colStepA (lh, false)).2) := by
  induction L with
  | nil => exact fun lh g => ⟨rfl, by simp⟩
  | cons a L ih =>
    intro lh g
    simp only [List.foldl_cons]
    obtain ⟨h1, h2⟩ := colStepA_fst_flag lh g a
    have e1 : colStepA (lh, g) a =
        ((colStepA (lh, false) a).1, g || (colStepA (lh, false) a).2) := by
      rw [Prod.ext_iff]
      exact ⟨h1, h2⟩
    have e2 : colStepA (lh, false) a =
        ((colStepA (lh, false) a).1, (colStepA (lh, false) a).2) := rfl
    rw [e1, e2]
    obtain ⟨ih1, ih2⟩ := ih (colStepA (lh, false) a).1 (g || (colStepA (lh, false) a).2)
    obtain ⟨ih3, ih4⟩ := ih (colStepA (lh, false) a).1 (colStepA (lh, false) a).2
    exact ⟨ih1.trans ih3.symm, by rw [ih2, ih4, Bool.or_assoc]⟩

/-- One row iteration of a gravity pass: bits above the board are untouched,
every column of the board evolves by `colStepA`, and the `moved` flag
accumulates the per-column move guards. -/
theorem rowStep_spec (row : Nat) (hrow : row < 7) (B : Match3Board) (f : Bool)
    (R : Match3Board × Bool) (hR : rowStep (B, f) row = R) :
    (∀ p, 64 ≤ p → (R.1.lowBits.testBit p = B.lowBits.testBit p ∧
        R.1.highBits.testBit p = B.highBits.testBit p)) ∧
    (∀ c, c < 8 →
        colw R.1.lowBits c =
          (colStepA ((colw B.lowBits c, colw B.highBits c), false) row).1.1 ∧
        colw R.1.highBits c =
          (colStepA ((colw B.lowBits c, colw B.highBits c), false) row).1.2) ∧
    R.2 = (f || (List.range 8).any fun c =>
      (colStepA ((colw B.lowBits c, colw B.highBits c), false) row).2) := by
  rw [rowStep] at hR
  by_cases he : andNot (0xFF <<< (row * 8)) ((B, f).1.lowBits ||| (B, f).1.highBits) ≠ 0
  · rw [if_pos he] at hR
    obtain ⟨hoff, hcol, hfl⟩ := colFold_spec row hrow B (List.range 8)
      (fun c hc => List.mem_range.mp hc) (List.nodup_range 8) B f
      (fun c _ => ⟨rfl, rfl⟩) R hR
    exact ⟨fun p hp => hoff p (Or.inr hp),
      fun c hc => hcol c (List.mem_range.mpr hc), hfl⟩
  · rw [if_neg he] at hR
    subst hR
    have hocc : ∀ c, c < 8 →
        (B.lowBits ||| B.highBits).testBit (row * 8 + c) = true := by
      intro c hc
      have h0 : andNot (0xFF <<< (row * 8)) (B.lowBits ||| B.highBits) = 0 :=
        not_not.mp he
      have hb := (eq_zero_iff_testBit _).mp h0 (row * 8 + c)
      rw [testBit_andNot, testBit_ffShift] at hb
      have d1 : decide (row * 8 ≤ row * 8 + c) = true := decide_eq_true (by omega)
      have d2 : decide (row * 8 + c - row * 8 < 8) = true := decide_eq_true (by omega)
      rw [d1, d2] at hb
      cases hx : (B.lowBits ||| B.highBits).testBit (row * 8 + c)
      · rw [hx] at hb
        exact absurd hb (by simp)
      · rfl
    have hmg : ∀ c, c < 8 →
        moveGuard (colw B.lowBits c ||| colw B.highBits c) row = false := by
      intro c hc
      cases hmv : moveGuard (colw B.lowBits c ||| colw B.highBits c) row
      · rfl
      · exfalso
        obtain ⟨ha, -, -⟩ := (moveGuard_eq_true_iff _ _).mp hmv
        rw [← colw_lor, testBit_colw] at ha
        have h8 : row < 8 := by omega
        rw [decide_eq_true h8, Bool.true_and, hocc c hc] at ha
        exact Bool.noConfusion ha
    have hid : ∀ c, c < 8 →
        colStepA ((colw B.lowBits c, colw B.highBits c), false) row =
          ((colw B.lowBits c, colw B.highBits c), false) := by
      intro c hc
      unfold colStepA
      rw [if_neg]
      rw [hmg c hc]
      exact Bool.false_ne_true
    refine ⟨fun p _ => ⟨rfl, rfl⟩,
      fun c hc => by rw [hid c hc]; exact ⟨rfl, rfl⟩, ?_⟩
    have hany : ((List.range 8).any fun c =>
        (colStepA ((colw B.lowBits c, colw B.highBits c), false) row).2) = false := by
      rw [List.any_eq_false]
      intro c hc
      rw [hid c (List.mem_range.mp hc)]
      simp
    rw [hany, Bool.or_false]

/-- A sequence of row iterations commutes with column extraction: each
column evolves by the abstract fold of `colStepA`, bits above the board are
untouched, and the `moved` flag accumulates the per-column flags. -/
theorem passFold_spec :
    ∀ (rows : List Nat), (∀ r ∈ rows, r < 7) →
    ∀ (B : Match3Board) (f : Bool) (R : Match3Board × Bool),
    rows.foldl rowStep (B, f) = R →
    (∀ p, 64 ≤ p → (R.1.lowBits.testBit p = B.lowBits.testBit p ∧
        R.1.highBits.testBit p = B.highBits.testBit p)) ∧
    (∀ c, c < 8 →
        colw R.1.lowBits c =
          (rows.foldl colStepA ((colw B.lowBits c, colw B.highBits c), false)).1.1 ∧
        colw R.1.highBits c =
          (rows.foldl colStepA ((colw B.lowBits c, colw B.highBits c), false)).1.2) ∧
    R.2 = (f || (List.range 8).any fun c =>
      (rows.foldl colStepA ((colw B.lowBits c, colw B.highBits c), false)).2) := by
  intro rows
  induction rows with
  | nil =>
    intro _ B f R hR
    subst hR
    exact ⟨fun p _ => ⟨rfl, rfl⟩, fun c _ => ⟨rfl, rfl⟩, by simp⟩
  | cons r T ih =>
    intro hmem B f R hR
    rcases hQ : rowStep (B, f) r with ⟨B1, f1⟩
    obtain ⟨hoff1, hcol1, hfl1⟩ := rowStep_spec r (hmem r (by simp)) B f (B1, f1) hQ
    rw [List.foldl_cons, hQ] at hR
    obtain ⟨hoffT, hcolT, hflT⟩ := ih (fun r' hr' => hmem r' (by simp [hr'])) B1 f1 R hR
    have hpair : ∀ c, c < 8 →
        (colw B1.lowBits c, colw B1.highBits c) =
          (colStepA ((colw B.lowBits c, colw B.highBits c), false) r).1 := by
      intro c hc
      rw [Prod.ext_iff]
      exact ⟨(hcol1 c hc).1, (hcol1 c hc).2⟩
    refine ⟨?_, ?_, ?_⟩
    · intro p hp
      obtain ⟨e1, e2⟩ := hoffT p hp
      obtain ⟨e3, e4⟩ := hoff1 p hp
      exact ⟨e1.trans e3, e2.trans e4⟩
    · intro c hc
      rw [List.foldl_cons]
      have hstep := colFoldA_flag T
        (colStepA ((colw B.lowBits c, colw B.highBits c), false) r).1
        (colStepA ((colw B.lowBits c, colw B.highBits c), false) r).2
      obtain ⟨hT1, -⟩ := hstep
      constructor
      · rw [(hcolT c hc).1, hpair c hc]
        exact congrArg Prod.fst hT1.symm
      · rw [(hcolT c hc).2, hpair c hc]
        exact congrArg Prod.snd hT1.symm
    · have hfl1' : f1 = (f || (List.range 8).any fun c =>
          (colStepA ((colw B.lowBits c, colw B.highBits c), false) r).2) := hfl1
      rw [hflT, hfl1']
      have hcongr1 : ((List.range 8).any fun c =>
          (T.foldl colStepA ((colw B1.lowBits c, colw B1.highBits c), false)).2) =
        ((List.range 8).any fun c =>
          (T.foldl colStepA
            ((colStepA ((colw B.lowBits c, colw B.highBits c), false) r).1,
              false)).2) := by
        refine list_any_congr fun c hc => ?_
        have hc8 : c < 8 := List.mem_range.mp hc
        rw [hpair c hc8]
      have hcongr2 : ((List.range 8).any fun c =>
          ((r :: T).foldl colStepA ((colw B.lowBits c, colw B.highBits c), false)).2) =
        ((List.range 8).any fun c =>
          ((colStepA ((colw B.lowBits c, colw B.highBits c), false) r).2 ||
            (T.foldl colStepA
              ((colStepA ((colw B.lowBits c, colw B.highBits c), false) r).1,
                false)).2)) := by
        refine list_any_congr fun c hc => ?_
        rw [List.foldl_cons]
        obtain ⟨-, hfl⟩ := colFoldA_flag T
          (colStepA ((colw B.lowBits c, colw B.highBits c), false) r).1
          (colStepA ((colw B.lowBits c, colw B.highBits c), false) r).2
        exact hfl
      rw [hcongr1, hcongr2, list_any_or, ← Bool.or_assoc]

/-- One full gravity pass commutes with column extraction. -/
theorem gravityPass_spec (B : Match3Board) (R : Match3Board × Bool)
    (hR : gravityPass B = R) :
    (∀ p, 64 ≤ p → (R.1.lowBits.testBit p = B.lowBits.testBit p ∧
        R.1.highBits.testBit p = B.highBits.testBit p)) ∧
    (∀ c, c < 8 →
        colw R.1.lowBits c = (colPassA (colw B.lowBits c, colw B.highBits c)).1.1 ∧
        colw R.1.highBits c = (colPassA (colw B.lowBits c, colw B.highBits c)).1.2) ∧
    R.2 = ((List.range 8).any fun c =>
      (colPassA (colw B.lowBits c, colw B.highBits c)).2) := by
  obtain ⟨h1, h2, h3⟩ := passFold_spec (List.range 7)
    (fun r hr => List.mem_range.mp hr) B false R hR
  refine ⟨h1, h2, ?_⟩
  rw [h3, Bool.false_or]
  rfl

/-! ### A pass that reports no move is the identity -/

theorem foldl_flag_mono {α β : Type} (f : α × Bool → β → α × Bool)
    (hf : ∀ s a, s.2 = true → (f s a).2 = true) :
    ∀ (L : List β) (s : α × Bool), s.2 = true → (L.foldl f s).2 = true := by
  intro L
  induction L with
  | nil => exact fun s h => h
  | cons a T ih => exact fun s h => ih (f s a) (hf s a h)

theorem foldl_no_move_id {α β : Type} (f : α × Bool → β → α × Bool)
    (hmono : ∀ s a, s.2 = true → (f s a).2 = true)
    (hid : ∀ s a, (f s a).2 = false → f s a = s) :
    ∀ (L : List β) (s : α × Bool), (L.foldl f s).2 = false → L.foldl f s = s := by
  intro L
  induction L with
  | nil => exact fun s _ => rfl
  | cons a T ih =>
    intro s h
    rw [List.foldl_cons] at h ⊢
    cases hq : (f s a).2 with
    | true =>
      exfalso
      have := foldl_flag_mono f hmono T (f s a) hq
      rw [h] at this
      exact Bool.noConfusion this
    | false =>
      rw [hid s a hq] at h ⊢
      exact ih s h

theorem colStep_mono (row occ empty arm : Nat) :
    ∀ (s : Match3Board × Bool) (c : Nat),
      s.2 = true → (colStep row occ empty arm s c).2 = true := by
  intro s c h
  simp only [colStep]
  split_ifs <;> simp [h]

theorem colStep_id (row occ empty arm : Nat) :
    ∀ (s : Match3Board × Bool) (c : Nat),
      (colStep row occ empty arm s c).2 = false → colStep row occ empty arm s c = s := by
  intro s c h
  simp only [colStep] at h ⊢
  split_ifs at h ⊢ <;> first | rfl | exact Bool.noConfusion h

theorem rowStep_mono : ∀ (s : Match3Board × Bool) (row : Nat),
    s.2 = true → (rowStep s row).2 = true := by
  intro s row h
  simp only [rowStep]
  split_ifs
  · exact foldl_flag_mono _ (colStep_mono _ _ _ _) _ s h
  · exact h

theorem rowStep_id : ∀ (s : Match3Board × Bool) (row : Nat),
    (rowStep s row).2 = false → rowStep s row = s := by
  intro s row h
  simp only [rowStep] at h ⊢
  split_ifs at h ⊢
  · exact foldl_no_move_id _ (colStep_mono _ _ _ _) (colStep_id _ _ _ _) _ s h
  · rfl

/-- If a full pass reports no move, it did not change the board. -/
theorem gravityPass_no_move (b : Match3Board) (h : (gravityPass b).2 = false) :
    gravityPass b = (b, false) :=
  foldl_no_move_id rowStep rowStep_mono rowStep_id (List.range 7) (b, false) h

theorem colStepA_mono : ∀ (s : (Nat × Nat) × Bool) (row : Nat),
    s.2 = true → (colStepA s row).2 = true := by
  intro s row h
  unfold colStepA
  split_ifs <;> simp [h]

theorem colStepA_id : ∀ (s : (Nat × Nat) × Bool) (row : Nat),
    (colStepA s row).2 = false → colStepA s row = s := by
  intro s row h
  unfold colStepA at h ⊢
  split_ifs at h ⊢ <;> first | rfl | exact Bool.noConfusion h

/-- If an abstract column pass reports no move, it did not change the
column. -/
theorem colPassA_no_move (lh : Nat × Nat) (h : (colPassA lh).2 = false) :
    colPassA lh = (lh, false) :=
  foldl_no_move_id colStepA colStepA_mono colStepA_id (List.range 7) (lh, false) h

/-! ### The occupancy machine -/

theorem colStepA_occ (st : (Nat × Nat) × Bool) (row : Nat) :
    ((colStepA st row).1.1 ||| (colStepA st row).1.2, (colStepA st row).2) =
      occStepA (st.1.1 ||| st.1.2, st.2) row := by
  unfold colStepA occStepA
  cases hmv : moveGuard (st.1.1 ||| st.1.2) row <;> simp [hmv, colMove_lor]

theorem foldA_occ (L : List Nat) : ∀ (st : (Nat × Nat) × Bool),
    ((L.foldl colStepA st).1.1 ||| (L.foldl colStepA st).1.2, (L.foldl colStepA st).2) =
      L.foldl occStepA (st.1.1 ||| st.1.2, st.2) := by
  induction L with
  | nil => exact fun st => rfl
  | cons a T ih =>
    intro st
    rw [List.foldl_cons, List.foldl_cons, ih (colStepA st a), colStepA_occ]

/-- The occupancy word and the `moved` flag of an abstract column pass are
computed by the occupancy machine. -/
theorem colPassA_occ (lh : Nat × Nat) :
    ((colPassA lh).1.1 ||| (colPassA lh).1.2, (colPassA lh).2) =
      occPassA (lh.1 ||| lh.2) :=
  foldA_occ (List.range 7) (lh, false)

theorem lor_lt_256 {a b : Nat} (ha : a < 256) (hb : b < 256) : a ||| b < 256 := by
  have h := lt_two_pow_of_high_bits_false (x := a ||| b) (n := 8) fun i hi => by
    rw [Nat.testBit_lor]
    have h1 : a.testBit i = false := by
      have : a < 2 ^ i := lt_of_lt_of_le ha (by
        calc (256 : Nat) = 2 ^ 8 := by norm_num
        _ ≤ 2 ^ i := Nat.pow_le_pow_right (by norm_num) hi)
      exact Nat.testBit_lt_two_pow this
    have h2 : b.testBit i = false := by
      have : b < 2 ^ i := lt_of_lt_of_le hb (by
        calc (256 : Nat) = 2 ^ 8 := by norm_num
        _ ≤ 2 ^ i := Nat.pow_le_pow_right (by norm_num) hi)
      exact Nat.testBit_lt_two_pow this
    rw [h1, h2]
    rfl
  norm_num at h
  exact h

/-! ### Decidable facts about the occupancy machine (256 states) -/

theorem occPassA_measure_lt : ∀ occ < 256,
    (occPassA occ).2 = true → occMeas (occPassA occ).1 < occMeas occ := by decide

theorem occPassA_measure_le : ∀ occ < 256,
    occMeas (occPassA occ).1 ≤ occMeas occ := by decide

theorem occMeas_le_28 : ∀ occ < 256, occMeas occ ≤ 28 := by decide

theorem occPassA_grounded : ∀ occ < 256,
    occ.testBit 0 = true → occPassA occ = (occ, false) := by decide

/-! ### Cell-level bridges -/

theorem getColor_eq_cellVal (b : Match3Board) (row col : Nat)
    (hrow : row < 8) (hcol : col < 8) :
    getColor b row col = cellVal (colw b.lowBits col) (colw b.highBits col) row := by
  unfold getColor cellVal
  rw [testBit_colw, testBit_colw, decide_eq_true hrow, Bool.true_and, Bool.true_and]
  cases hlb : b.lowBits.testBit (row * 8 + col) <;>
    cases hhb : b.highBits.testBit (row * 8 + col) <;>
      simp [and_oneShift_ne_zero, hlb, hhb]

theorem cellVal_ne_zero_iff (l h r : Nat) :
    cellVal l h r ≠ 0 ↔ (l ||| h).testBit r = true := by
  unfold cellVal
  rw [Nat.testBit_lor]
  cases hl : l.testBit r <;> cases hh : h.testBit r <;> simp

/-- The termination measure decomposes into per-column occupancy
measures. -/
theorem sumRows_eq (b : Match3Board) :
    sumRows b = ∑ c ∈ Finset.range 8, occMeas (colw b.lowBits c ||| colw b.highBits c) := by
  unfold sumRows occMeas
  rw [Finset.sum_comm]
  refine Finset.sum_congr rfl fun c hc => Finset.sum_congr rfl fun r hr => ?_
  have hr8 := Finset.mem_range.mp hr
  have hc8 := Finset.mem_range.mp hc
  rw [getColor_eq_cellVal b r c hr8 hc8]
  cases h1 : (colw b.lowBits c).testBit r <;>
    cases h2 : (colw b.highBits c).testBit r <;>
      simp [cellVal, Nat.testBit_lor, h1, h2]

/-- A pass that moves strictly decreases the sum of occupied row indices;
a pass never increases it. -/
theorem gravityPass_measure (b : Match3Board) :
    ((gravityPass b).2 = true → sumRows (gravityPass b).1 < sumRows b) ∧
    sumRows (gravityPass b).1 ≤ sumRows b := by
  obtain ⟨-, hcols, hflag⟩ := gravityPass_spec b (gravityPass b) rfl
  have hocc : ∀ c, c < 8 →
      colw (gravityPass b).1.lowBits c ||| colw (gravityPass b).1.highBits c =
        (occPassA (colw b.lowBits c ||| colw b.highBits c)).1 := by
    intro c hc
    rw [(hcols c hc).1, (hcols c hc).2]
    exact congrArg Prod.fst (colPassA_occ (colw b.lowBits c, colw b.highBits c))
  have hflag' : ∀ c, c < 8 →
      (colPassA (colw b.lowBits c, colw b.highBits c)).2 =
        (occPassA (colw b.lowBits c ||| colw b.highBits c)).2 :=
    fun c _ => congrArg Prod.snd (colPassA_occ (colw b.lowBits c, colw b.highBits c))
  have hbound : ∀ c, colw b.lowBits c ||| colw b.highBits c < 256 :=
    fun c => lor_lt_256 (colw_lt _ _) (colw_lt _ _)
  constructor
  · intro hmv
    rw [hflag] at hmv
    obtain ⟨c, hcmem, hcflag⟩ := List.any_eq_true.mp hmv
    have hc8 := List.mem_range.mp hcmem
    rw [sumRows_eq, sumRows_eq]
    refine Finset.sum_lt_sum (fun i hi => ?_) ⟨c, Finset.mem_range.mpr hc8, ?_⟩
    · have hi8 := Finset.mem_range.mp hi
      rw [hocc i hi8]
      exact occPassA_measure_le _ (hbound i)
    · rw [hocc c hc8]
      refine occPassA_measure_lt _ (hbound c) ?_
      rw [← hflag' c hc8]
      exact hcflag
  · rw [sumRows_eq, sumRows_eq]
    refine Finset.sum_le_sum fun i hi => ?_
    have hi8 := Finset.mem_range.mp hi
    rw [hocc i hi8]
    exact occPassA_measure_le _ (hbound i)

theorem sumRows_le_224 (b : Match3Board) : sumRows b ≤ 224 := by
  rw [sumRows_eq]
  calc ∑ c ∈ Finset.range 8, occMeas (colw b.lowBits c ||| colw b.highBits c)
      ≤ ∑ _c ∈ Finset.range 8, 28 :=
        Finset.sum_le_sum fun c _ =>
          occMeas_le_28 _ (lor_lt_256 (colw_lt _ _) (colw_lt _ _))
    _ = 224 := by simp

/-! ### The loop reaches its fixed point -/

theorem gravityLoop_settled : ∀ (fuel : Nat) (b : Match3Board),
    sumRows b < fuel → (gravityPass (gravityLoop fuel b)).2 = false := by
  intro fuel
  induction fuel with
  | zero => intro b hb; omega
  | succ n ih =>
    intro b hb
    show (gravityPass (gravityLoop (n + 1) b)).2 = false
    rcases hq : gravityPass b with ⟨b', mv⟩
    have hloop : gravityLoop (n + 1) b = if mv then gravityLoop n b' else b' := by
      simp only [gravityLoop, hq]
    cases mv with
    | false =>
      rw [hloop, if_neg Bool.false_ne_true]
      have hfix : gravityPass b = (b, false) := gravityPass_no_move b (by rw [hq])
      have hb' : b' = b := by
        have := hq.symm.trans hfix
        exact congrArg Prod.fst this
      rw [hb', hq]
    | true =>
      rw [hloop, if_pos rfl]
      refine ih b' ?_
      have hlt := (gravityPass_measure b).1 (by rw [hq])
      rw [hq] at hlt
      have hlt' : sumRows b' < sumRows b := hlt
      omega

/-- `applyGravity` always ends in a state on which a further pass makes no
move (the do-while loop exits within its fuel). -/
theorem applyGravity_settled (b : Match3Board) :
    (gravityPass (applyGravity b)).2 = false :=
  gravityLoop_settled 225 b (by have := sumRows_le_224 b; omega)

theorem gravityLoop_of_settled (fuel : Nat) (b : Match3Board)
    (h : (gravityPass b).2 = false) : gravityLoop (fuel + 1) b = b := by
  have hfix : gravityPass b = (b, false) := gravityPass_no_move b h
  simp only [gravityLoop, hfix]
  rw [if_neg Bool.false_ne_true]

/-- Column evolution of the loop: every column of the final board is an
iterate of the abstract column pass on the initial column. -/
theorem gravityLoop_cols : ∀ (fuel : Nat) (b : Match3Board), ∃ n,
    ∀ c, c < 8 →
      colw (gravityLoop fuel b).lowBits c =
        (colPassN n (colw b.lowBits c, colw b.highBits c)).1 ∧
      colw (gravityLoop fuel b).highBits c =
        (colPassN n (colw b.lowBits c, colw b.highBits c)).2 := by
  intro fuel
  induction fuel with
  | zero => exact fun b => ⟨0, fun c _ => ⟨rfl, rfl⟩⟩
  | succ m ih =>
    intro b
    rcases hq : gravityPass b with ⟨b', mv⟩
    obtain ⟨-, hcols, -⟩ := gravityPass_spec b (b', mv) hq
    have hpair : ∀ c, c < 8 →
        (colw b'.lowBits c, colw b'.highBits c) =
          (colPassA (colw b.lowBits c, colw b.highBits c)).1 := by
      intro c hc
      rw [Prod.ext_iff]
      exact ⟨(hcols c hc).1, (hcols c hc).2⟩
    have hloop : gravityLoop (m + 1) b = if mv then gravityLoop m b' else b' := by
      simp only [gravityLoop, hq]
    cases mv with
    | false =>
      refine ⟨1, fun c hc => ?_⟩
      rw [hloop, if_neg Bool.false_ne_true]
      have h1 : colPassN 1 (colw b.lowBits c, colw b.highBits c) =
          (colPassA (colw b.lowBits c, colw b.highBits c)).1 := rfl
      rw [h1, ← hpair c hc]
      exact ⟨rfl, rfl⟩
    | true =>
      obtain ⟨n, hn⟩ := ih b'
      refine ⟨n + 1, fun c hc => ?_⟩
      rw [hloop, if_pos rfl]
      have h1 : colPassN (n + 1) (colw b.lowBits c, colw b.highBits c) =
          colPassN n (colPassA (colw b.lowBits c, colw b.highBits c)).1 := rfl
      rw [h1, ← hpair c hc]
      exact hn c hc

theorem applyGravity_cols (b : Match3Board) : ∃ n,
    ∀ c, c < 8 →
      colw (applyGravity b).lowBits c =
        (colPassN n (colw b.lowBits c, colw b.highBits c)).1 ∧
      colw (applyGravity b).highBits c =
        (colPassN n (colw b.lowBits c, colw b.highBits c)).2 :=
  gravityLoop_cols 225 b

/-! ### Conservation of cell values -/

/-- Number of cells of a column holding the value `v`. -/
def colCnt (v : Nat) (lh : Nat × Nat) : Nat :=
  ∑ r ∈ Finset.range 8, if cellVal lh.1 lh.2 r = v then 1 else 0

theorem testBit_lor_false {a b r : Nat} (h : (a ||| b).testBit r = false) :
    a.testBit r = false ∧ b.testBit r = false := by
  rw [Nat.testBit_lor] at h
  cases ha : a.testBit r <;> cases hb : b.testBit r <;>
    rw [ha, hb] at h <;> first | exact ⟨rfl, rfl⟩ | exact Bool.noConfusion h

/-- A single one-row move permutes the cell contents of the column, so all
value counts are preserved. -/
theorem colCnt_move (l h row : Nat) (hrow : row < 7)
    (hg : moveGuard (l ||| h) row = true) (v : Nat) :
    colCnt v (colMove l row, colMove h row) = colCnt v (l, h) := by
  obtain ⟨hempty, -, -⟩ := (moveGuard_eq_true_iff _ _).mp hg
  obtain ⟨hl0, hh0⟩ := testBit_lor_false hempty
  have hother : ∀ r, r ≠ row → r ≠ row + 1 →
      cellVal (colMove l row) (colMove h row) r = cellVal l h r := by
    intro r h1 h2
    unfold cellVal
    rw [testBit_colMove, testBit_colMove]
    have d1 : decide (r = row + 1) = false := by
      simp only [decide_eq_false_iff_not]; exact h2
    have d2 : decide (r = row) = false := by
      simp only [decide_eq_false_iff_not]; exact h1
    rw [d1, d2]
    simp
  have hat_row : cellVal (colMove l row) (colMove h row) row = cellVal l h (row + 1) := by
    unfold cellVal
    rw [testBit_colMove, testBit_colMove]
    have d1 : decide (row = row + 1) = false := by
      simp only [decide_eq_false_iff_not]; omega
    rw [d1, hl0, hh0]
    simp
  have hat_row1 : cellVal (colMove l row) (colMove h row) (row + 1) = 0 := by
    unfold cellVal
    rw [testBit_colMove, testBit_colMove]
    have d1 : decide (row + 1 = row + 1) = true := decide_eq_true rfl
    have d2 : decide (row + 1 = row) = false := by
      simp only [decide_eq_false_iff_not]; omega
    rw [d1, d2]
    simp
  have hzero_row : cellVal l h row = 0 := by
    unfold cellVal
    rw [hl0, hh0]
    simp
  unfold colCnt
  show (∑ r ∈ Finset.range 8,
      ((if cellVal (colMove l row) (colMove h row) r = v then 1 else 0) : Nat)) =
    ∑ r ∈ Finset.range 8, ((if cellVal l h r = v then 1 else 0) : Nat)
  have hrow_mem : row ∈ Finset.range 8 := Finset.mem_range.mpr (by omega)
  have hrow1_mem : row + 1 ∈ (Finset.range 8).erase row :=
    Finset.mem_erase.mpr ⟨by omega, Finset.mem_range.mpr (by omega)⟩
  have split : ∀ (g : Nat → Nat), ∑ r ∈ Finset.range 8, g r =
      g row + (g (row + 1) + ∑ r ∈ ((Finset.range 8).erase row).erase (row + 1), g r) := by
    intro g
    rw [← Finset.add_sum_erase _ g hrow_mem, ← Finset.add_sum_erase _ g hrow1_mem]
  rw [split, split]
  have hcongr : ∑ r ∈ ((Finset.range 8).erase row).erase (row + 1),
      ((if cellVal (colMove l row) (colMove h row) r = v then 1 else 0) : Nat) =
    ∑ r ∈ ((Finset.range 8).erase row).erase (row + 1),
      ((if cellVal l h r = v then 1 else 0) : Nat) := by
    refine Finset.sum_congr rfl fun r hrm => ?_
    have hne1 : r ≠ row + 1 := (Finset.mem_erase.mp hrm).1
    have hne2 : r ≠ row := (Finset.mem_erase.mp (Finset.mem_erase.mp hrm).2).1
    rw [hother r hne2 hne1]
  rw [hcongr, hat_row, hat_row1, hzero_row]
  omega

theorem colCnt_colStepA (v : Nat) (st : (Nat × Nat) × Bool) (row : Nat) (hrow : row < 7) :
    colCnt v (colStepA st row).1 = colCnt v st.1 := by
  unfold colStepA
  cases hmv : moveGuard (st.1.1 ||| st.1.2) row
  · rw [if_neg Bool.false_ne_true]
  · rw [if_pos rfl]
    exact colCnt_move st.1.1 st.1.2 row hrow hmv v

theorem colCnt_foldA (v : Nat) (L : List Nat) (hL : ∀ r ∈ L, r < 7) :
    ∀ st, colCnt v (L.foldl colStepA st).1 = colCnt v st.1 := by
  induction L with
  | nil => exact fun st => rfl
  | cons a T ih =>
    intro st
    rw [List.foldl_cons, ih (fun r hr => hL r (by simp [hr])) (colStepA st a),
      colCnt_colStepA v st a (hL a (by simp))]

theorem colCnt_colPassA (v : Nat) (lh : Nat × Nat) :
    colCnt v (colPassA lh).1 = colCnt v lh :=
  colCnt_foldA v (List.range 7) (fun r hr => List.mem_range.mp hr) (lh, false)

theorem colCnt_colPassN (v : Nat) : ∀ (n : Nat) (lh : Nat × Nat),
    colCnt v (colPassN n lh) = colCnt v lh := by
  intro n
  induction n with
  | zero => exact fun lh => rfl
  | succ m ih =>
    intro lh
    show colCnt v (colPassN m (colPassA lh).1) = colCnt v lh
    rw [ih (colPassA lh).1, colCnt_colPassA]

/-! ### Count bridges between lists and column sums -/

theorem count_map_range (a n : Nat) (f : Nat → Nat) :
    List.count a ((List.range n).map f) =
      ∑ r ∈ Finset.range n, if f r = a then 1 else 0 := by
  induction n with
  | zero => rfl
  | succ n ih =>
    rw [List.range_succ, List.map_append, List.count_append, ih, Finset.sum_range_succ]
    simp [List.count_cons, List.count_nil, beq_iff_eq]

theorem count_flatMap (a : Nat) (L : List Nat) (f : Nat → List Nat) :
    List.count a (L.flatMap f) = (L.map fun c => List.count a (f c)).sum := by
  induction L with
  | nil => rfl
  | cons c T ih =>
    rw [List.flatMap_cons, List.count_append, ih, List.map_cons, List.sum_cons]

theorem cellVal_zero_bits {l h r : Nat} (hz : cellVal l h r = 0) :
    l.testBit r = false ∧ h.testBit r = false := by
  unfold cellVal at hz
  cases hl : l.testBit r <;> cases hh : h.testBit r <;>
    rw [hl, hh] at hz <;> first | exact ⟨rfl, rfl⟩ | exact absurd hz (by simp)

theorem colPassA_zero : colPassA (0, 0) = ((0, 0), false) := by decide

theorem colPassN_zero : ∀ n, colPassN n (0, 0) = (0, 0) := by
  intro n
  induction n with
  | zero => rfl
  | succ m ih =>
    show colPassN m (colPassA (0, 0)).1 = (0, 0)
    rw [colPassA_zero]
    exact ih

/-! ### Claim theorems -/

/-- C4: for every board state and every column `c` whose bottom cell
`(0, c)` is occupied, `applyGravity` leaves every cell of column `c`
unchanged — the `hasPieceBelow` test skips every empty cell that has any
piece below it, so a column grounded at row 0 never moves. -/
theorem gravity_grounded_column_unchanged (b : Match3Board) (c : Nat) (hc : c < 8)
    (h0 : getColor b 0 c ≠ 0) :
    ∀ r, r < 8 → getColor (applyGravity b) r c = getColor b r c := by
  obtain ⟨n, hn⟩ := applyGravity_cols b
  have hob : (colw b.lowBits c ||| colw b.highBits c).testBit 0 = true := by
    rw [← cellVal_ne_zero_iff]
    rw [getColor_eq_cellVal b 0 c (by omega) hc] at h0
    exact h0
  have hid : colPassA (colw b.lowBits c, colw b.highBits c) =
      ((colw b.lowBits c, colw b.highBits c), false) := by
    have hocc := occPassA_grounded _ (lor_lt_256 (colw_lt _ _) (colw_lt _ _)) hob
    have hflag : (colPassA (colw b.lowBits c, colw b.highBits c)).2 = false := by
      have h2 := congrArg Prod.snd (colPassA_occ (colw b.lowBits c, colw b.highBits c))
      rw [h2, hocc]
    exact colPassA_no_move _ hflag
  have hfixN : ∀ m, colPassN m (colw b.lowBits c, colw b.highBits c) =
      (colw b.lowBits c, colw b.highBits c) := by
    intro m
    induction m with
    | zero => rfl
    | succ k ih =>
      show colPassN k (colPassA (colw b.lowBits c, colw b.highBits c)).1 = _
      rw [hid]
      exact ih
  intro r hr
  rw [getColor_eq_cellVal _ r c hr hc, getColor_eq_cellVal b r c hr hc,
    (hn c hc).1, (hn c hc).2, hfixN n]

theorem gravity_grounded_column_unchanged_witness :
    getColor (setColor (setColor emptyBoard 0 2 1) 3 2 2) 0 2 ≠ 0 ∧
    getColor (applyGravity (setColor (setColor emptyBoard 0 2 1) 3 2 2)) 3 2 =
      getColor (setColor (setColor emptyBoard 0 2 1) 3 2 2) 3 2 :=
  ⟨by decide,
   gravity_grounded_column_unchanged (setColor (setColor emptyBoard 0 2 1) 3 2 2) 2
     (by decide) (by decide) 3 (by decide)⟩

/-- C9: gravity acts on columns independently — on a board whose occupied
cells all lie in a single column `c`, `applyGravity` changes no cell outside
column `c`. -/
theorem gravity_single_column_frame (b : Match3Board) (c : Nat) (hc : c < 8)
    (honly : ∀ r, r < 8 → ∀ c', c' < 8 → c' ≠ c → getColor b r c' = 0) :
    ∀ r c', r < 8 → c' < 8 → c' ≠ c → getColor (applyGravity b) r c' = getColor b r c' := by
  obtain ⟨n, hn⟩ := applyGravity_cols b
  intro r c' hr hc' hne
  have hcell : ∀ i, i < 8 →
      cellVal (colw b.lowBits c') (colw b.highBits c') i = 0 := fun i hi => by
    rw [← getColor_eq_cellVal b i c' hi hc']
    exact honly i hi c' hc' hne
  have hcl : colw b.lowBits c' = 0 := by
    rw [eq_zero_iff_testBit]
    intro i
    by_cases hi : i < 8
    · rw [testBit_colw, decide_eq_true hi, Bool.true_and]
      have := (cellVal_zero_bits (hcell i hi)).1
      rw [testBit_colw, decide_eq_true hi, Bool.true_and] at this
      exact this
    · rw [testBit_colw]
      simp [hi]
  have hch : colw b.highBits c' = 0 := by
    rw [eq_zero_iff_testBit]
    intro i
    by_cases hi : i < 8
    · rw [testBit_colw, decide_eq_true hi, Bool.true_and]
      have := (cellVal_zero_bits (hcell i hi)).2
      rw [testBit_colw, decide_eq_true hi, Bool.true_and] at this
      exact this
    · rw [testBit_colw]
      simp [hi]
  rw [getColor_eq_cellVal _ r c' hr hc', (hn c' hc').1, (hn c' hc').2, hcl, hch,
    colPassN_zero n, honly r hr c' hc' hne]
  simp [cellVal, Nat.zero_testBit]

theorem gravity_single_column_frame_witness :
    (∀ r, r < 8 → ∀ c', c' < 8 → c' ≠ 1 → getColor (setColor emptyBoard 5 1 3) r c' = 0) ∧
    getColor (applyGravity (setColor emptyBoard 5 1 3)) 5 0 =
      getColor (setColor emptyBoard 5 1 3) 5 0 :=
  ⟨by decide,
   gravity_single_column_frame (setColor emptyBoard 5 1 3) 1 (by decide) (by decide)
     5 0 (by decide) (by decide) (by decide)⟩

/-- C5: the multiset of nonzero cell values over the 64 cells is identical
before and after `applyGravity` — every move copies the single piece into an
empty cell and clears its source, so the column contents are permuted. -/
theorem gravity_conserves_values (b : Match3Board) :
    occupiedValues (applyGravity b) = occupiedValues b := by
  obtain ⟨n, hn⟩ := applyGravity_cols b
  unfold occupiedValues
  rw [Multiset.coe_eq_coe, List.perm_iff_count]
  intro a
  by_cases ha : a = 0
  · subst ha
    have hz : ∀ (L : List Nat), List.count 0 (L.filter (· ≠ 0)) = 0 := by
      intro L
      rw [List.count_eq_zero]
      intro hmem
      have := List.of_mem_filter hmem
      simp at this
    rw [hz, hz]
  · have hcf : ∀ (L : List Nat),
        List.count a (L.filter (· ≠ 0)) = List.count a L := fun L =>
      List.count_filter (decide_eq_true ha)
    rw [hcf, hcf, count_flatMap, count_flatMap]
    congr 1
    refine List.map_congr_left fun c hc => ?_
    have hc8 := List.mem_range.mp hc
    rw [count_map_range, count_map_range]
    have e1 : ∑ r ∈ Finset.range 8,
        ((if getColor (applyGravity b) r c = a then 1 else 0) : Nat) =
      colCnt a (colPassN n (colw b.lowBits c, colw b.highBits c)) := by
      refine Finset.sum_congr rfl fun r hr => ?_
      rw [getColor_eq_cellVal _ r c (Finset.mem_range.mp hr) hc8,
        (hn c hc8).1, (hn c hc8).2]
    have e2 : ∑ r ∈ Finset.range 8,
        ((if getColor b r c = a then 1 else 0) : Nat) =
      colCnt a (colw b.lowBits c, colw b.highBits c) := by
      refine Finset.sum_congr rfl fun r hr => ?_
      rw [getColor_eq_cellVal b r c (Finset.mem_range.mp hr) hc8]
    rw [e1, e2, colCnt_colPassN]

/-- C6: `applyGravity` is idempotent — the loop runs to its fixed point, and
a pass on a settled board makes no move and no change. -/
theorem applyGravity_idempotent (b : Match3Board) :
    applyGravity (applyGravity b) = applyGravity b :=
  gravityLoop_of_settled 224 (applyGravity b) (applyGravity_settled b)

/-- C8: every pass of `applyGravity` either performs at least one downward
move — strictly decreasing the sum of occupied-cell row indices — or
performs none, leaving the board unchanged; and the loop always reaches the
moveless fixed point within its fuel, so the operation terminates on every
board state. -/
theorem gravity_pass_terminates (b : Match3Board) :
    ((gravityPass b).2 = true → sumRows (gravityPass b).1 < sumRows b) ∧
    ((gravityPass b).2 = false → (gravityPass b).1 = b) ∧
    (gravityPass (applyGravity b)).2 = false :=
  ⟨fun h => (gravityPass_measure b).1 h,
   fun h => congrArg Prod.fst (gravityPass_no_move b h),
   applyGravity_settled b⟩

theorem gravity_pass_terminates_witness :
    (gravityPass (setColor emptyBoard 3 0 1)).2 = true ∧
    sumRows (gravityPass (setColor emptyBoard 3 0 1)).1 <
      sumRows (setColor emptyBoard 3 0 1) ∧
    (gravityPass (applyGravity (setColor emptyBoard 3 0 1))).2 = false :=
  ⟨by decide,
   (gravity_pass_terminates (setColor emptyBoard 3 0 1)).1 (by decide),
   (gravity_pass_terminates (setColor emptyBoard 3 0 1)).2.2⟩

/-- C1: the claimed no-gap postcondition fails on the code.  On a board
whose column 3 holds pieces at rows 0 and 2, `applyGravity` moves nothing
(the empty cell at row 1 is skipped because a piece lies below it), so after
the call row 1 is empty while row 2 is occupied — occupied cells do not form
a contiguous prefix.  This contradicts the routine's own documentation
("ensures pieces stack on top of each other"). -/
theorem gravity_gap_persists :
    applyGravity (setColor (setColor emptyBoard 0 3 1) 2 3 3) =
      setColor (setColor emptyBoard 0 3 1) 2 3 3 ∧
    getColor (applyGravity (setColor (setColor emptyBoard 0 3 1) 2 3 3)) 1 3 = 0 ∧
    getColor (applyGravity (setColor (setColor emptyBoard 0 3 1) 2 3 3)) 2 3 = 3 := by
  decide

/-- C3: the concrete stacking scenario fails on the code.  After setting
`(7,3)=1`, `(5,3)=2`, `(3,3)=3`, `(0,3)=1` and calling `applyGravity`,
column 3 reads bottom-up `[1,0,0,3,0,2,0,1]` — the board is unchanged, not
the claimed `[1,1,2,3,0,0,0,0]`. -/
theorem gravity_scenario_column3 :
    ((List.range 8).map fun r =>
        getColor (applyGravity (setColor (setColor (setColor
          (setColor emptyBoard 7 3 1) 5 3 2) 3 3 3) 0 3 1)) r 3) =
      [1, 0, 0, 3, 0, 2, 0, 1] ∧
    ((List.range 8).map fun r =>
        getColor (applyGravity (setColor (setColor (setColor
          (setColor emptyBoard 7 3 1) 5 3 2) 3 3 3) 0 3 1)) r 3) ≠
      [1, 1, 2, 3, 0, 0, 0, 0] := by
  decide

/-- C2: the transpose claim fails on the code.  For the input with only bit
`(0,0)` set, `transposeBitboard` returns `0x0101010101010101` (the whole
first file), not the single bit `(0,0)` that a transpose must return. -/
theorem transpose_single_bit_wrong :
    transposeBitboard (1 <<< (0 * 8 + 0)) = 0x0101010101010101 ∧
    transposeBitboard (1 <<< (0 * 8 + 0)) ≠ 1 <<< (0 * 8 + 0) := by
  decide

/-- C7: the involution claim fails on the code: applying `transposeBitboard`
twice to `1` yields `0x0001000001010101`, not `1`. -/
theorem transpose_not_involutive :
    transposeBitboard (transposeBitboard 1) = 0x0001000001010101 ∧
    transposeBitboard (transposeBitboard 1) ≠ 1 := by
  decide

/-- C10: the fail-fast claim fails on the code.  `setColor` performs no
bounds check: an out-of-range write `(8,0)` silently modifies the state
(bit 64), an out-of-range value `5` is silently masked to its low two bits
(behaving as value `1`), and an out-of-range column aliases into another
cell (`(0,9)` writes cell `(1,1)`). -/
theorem setColor_unchecked_counterexample :
    setColor emptyBoard 8 0 1 ≠ emptyBoard ∧
    setColor emptyBoard 0 0 5 = setColor emptyBoard 0 0 1 ∧
    setColor emptyBoard 0 9 2 = setColor emptyBoard 1 1 2 := by
  decide

theorem setColor_out_of_board_bits (b : Match3Board) (v p : Nat) (hp : p < 64) :
    (setColor b 8 0 v).lowBits.testBit p = b.lowBits.testBit p ∧
    (setColor b 8 0 v).highBits.testBit p = b.highBits.testBit p := by
  have hd : decide (p = 8 * 8 + 0) = false := by
    simp only [decide_eq_false_iff_not]; omega
  constructor
  · show (if v &&& 1 ≠ 0 then b.lowBits ||| 1 <<< (8 * 8 + 0)
        else andNot b.lowBits (1 <<< (8 * 8 + 0))).testBit p = b.lowBits.testBit p
    split_ifs with h1
    · rw [Nat.testBit_lor, testBit_oneShift, hd]
      simp
    · rw [testBit_andNot, testBit_oneShift, hd]
      simp
  · show (if v &&& 2 ≠ 0 then b.highBits ||| 1 <<< (8 * 8 + 0)
        else andNot b.highBits (1 <<< (8 * 8 + 0))).testBit p = b.highBits.testBit p
    split_ifs with h1
    · rw [Nat.testBit_lor, testBit_oneShift, hd]
      simp
    · rw [testBit_andNot, testBit_oneShift, hd]
      simp

/-- C10 (amended): `getColor`/`setColor` do not validate their arguments —
`setColor` uses only the low two bits of the value (any value behaves as
`value % 4`), and a write at the out-of-range position `(8,0)` lands above
the 64-bit board, leaving every in-range cell unchanged. -/
theorem setColor_unchecked_amended (b : Match3Board) (r c v : Nat) :
    setColor b r c v = setColor b r c (v % 4) ∧
    (r < 8 → c < 8 → getColor (setColor b 8 0 v) r c = getColor b r c) := by
  constructor
  · have h1 : v &&& 1 = v % 4 &&& 1 := by
      refine Nat.eq_of_testBit_eq fun i => ?_
      rw [Nat.testBit_land, Nat.testBit_land,
        show (4 : Nat) = 2 ^ 2 from rfl, Nat.testBit_mod_two_pow,
        show (1 : Nat) = 1 <<< 0 from rfl, testBit_oneShift]
      by_cases hi : i = 0
      · subst hi; simp
      · simp [hi]
    have h2 : v &&& 2 = v % 4 &&& 2 := by
      refine Nat.eq_of_testBit_eq fun i => ?_
      rw [Nat.testBit_land, Nat.testBit_land,
        show (4 : Nat) = 2 ^ 2 from rfl, Nat.testBit_mod_two_pow,
        show (2 : Nat) = 1 <<< 1 from rfl, testBit_oneShift]
      by_cases hi : i = 1
      · subst hi; simp
      · simp [hi]
    unfold setColor
    rw [h1, h2]
  · intro hr hc
    have hb := setColor_out_of_board_bits b v (r * 8 + c) (by omega)
    unfold getColor
    simp only [and_oneShift_ne_zero, hb.1, hb.2]

theorem setColor_unchecked_amended_witness :
    setColor emptyBoard 0 0 7 = setColor emptyBoard 0 0 (7 % 4) ∧
    ((0 : Nat) < 8 ∧
      getColor (setColor emptyBoard 8 0 7) 0 0 = getColor emptyBoard 0 0) :=
  ⟨(setColor_unchecked_amended emptyBoard 0 0 7).1,
   by decide,
   (setColor_unchecked_amended emptyBoard 0 0 7).2 (by decide) (by decide)⟩

end Match3Spec
